import Mathlib

/-!
# Verification of the text_to_audio text-chunking / tokenization / assembly core

This development gives a shallow embedding of the deterministic core of the
`text_to_audio` repository (files `app.py`, `nix/tokenizers/tokenizer_en.py`,
`nix/models/TTS.py`) and proves or refutes the specification's claims about it.

Python strings are modelled as `List Char` (a Python `str` is a sequence of
code points); Python `list`s as Lean lists; machine floats that the claims
depend on only at exactly-representable dyadic values are modelled as `ℚ`.
External collaborators (the espeak phonemizer, the ONNX encoder/decoder) are
modelled as opaque function parameters, exactly as the spec treats them.
-/

namespace TextToAudio

/-- One whitespace test, `Char.isWhitespace`, modelling Python's notion of
whitespace for `str.split()` / `str.strip()` (the inputs in the claims only
use the space character, on which both notions agree). -/
def isWs (c : Char) : Bool := c.isWhitespace

/-- One step of splitting a character sequence at every whitespace character.
Starting a new (empty) group at a whitespace character, otherwise extending
the current (head) group. -/
def wsStep (c : Char) (acc : List (List Char)) : List (List Char) :=
  if isWs c then [] :: acc
  else match acc with
    | [] => [[c]]
    | w :: ws => (c :: w) :: ws

/-- Splitting `s` at every whitespace character, continuing into the groups
`init` (the groups of whatever text follows `s`). -/
def wsGroupsAux (s : List Char) (init : List (List Char)) : List (List Char) :=
  s.foldr wsStep init

/-- All groups obtained by splitting `s` at every whitespace character
(kept including the empty groups between consecutive whitespace characters;
always non-empty as a list of groups). -/
def splitWsAll (s : List Char) : List (List Char) :=
  wsGroupsAux s [[]]

/-- Python `s.split()` (no separator argument): the maximal whitespace-free
non-empty groups of `s`, i.e. whitespace-split with empty groups dropped. -/
def pyWords (s : List Char) : List (List Char) :=
  (splitWsAll s).filter (· ≠ [])

/-- Python `s.strip()`: remove leading and trailing whitespace. -/
def pyStrip (s : List Char) : List Char :=
  (s.dropWhile isWs).rdropWhile isWs

/-- Python `sep.join(parts)`. -/
def pyJoin (sep : List Char) : List (List Char) → List Char
  | [] => []
  | [p] => p
  | p :: q :: ps => p ++ sep ++ pyJoin sep (q :: ps)

/-- Helper for `splitDotSpace`: prepend a character to the first group. -/
def headCons (c : Char) : List (List Char) → List (List Char)
  | [] => [[c]]
  | w :: ws => (c :: w) :: ws

/-- Python `text.split('. ')` (`app.py` line 76): split at each
non-overlapping occurrence of the two-character separator `". "`, scanning
left to right. -/
def splitDotSpace : List Char → List (List Char)
  | [] => [[]]
  | [c] => [[c]]
  | c :: d :: t =>
    if c = '.' ∧ d = ' ' then [] :: splitDotSpace t
    else headCons c (splitDotSpace (d :: t))

/-- `TextToSpeechConverter._split_sentence`, the word-packing loop
(`app.py` lines 57-67): state is the remaining words, the accumulated
`temp_chunk` and the running `temp_size`. -/
def splitSentenceGo (chunkSize : Nat) : List (List Char) → List (List Char) → Nat → List (List Char)
  | [], temp, _ => if temp = [] then [] else [pyJoin [' '] temp ++ ['.']]
  | w :: ws, temp, size =>
    if size + w.length > chunkSize ∧ temp ≠ [] then
      (pyJoin [' '] temp ++ ['.']) :: splitSentenceGo chunkSize ws [w] w.length
    else
      splitSentenceGo chunkSize ws (temp ++ [w]) (size + w.length + 1)

/-- `TextToSpeechConverter._split_sentence` (`app.py` lines 50-68):
split a long sentence into smaller chunks at word boundaries. -/
def splitSentence (chunkSize : Nat) (sentence : List Char) : List (List Char) :=
  splitSentenceGo chunkSize (pyWords sentence) [] 0

/-- `TextToSpeechConverter.split_text_into_chunks`, the sentence-packing loop
(`app.py` lines 76-93): state is the remaining sentence fragments, the
accumulated `current_chunk` and the running `current_size`. -/
def splitChunksGo (chunkSize : Nat) : List (List Char) → List (List Char) → Nat → List (List Char)
  | [], current, _ => if current = [] then [] else [pyJoin ['.', ' '] current ++ ['.']]
  | f :: rest, current, size =>
    if pyStrip f = [] then splitChunksGo chunkSize rest current size
    else if (pyStrip f).length > chunkSize then
      splitSentence chunkSize (pyStrip f) ++ splitChunksGo chunkSize rest current size
    else if size + (pyStrip f).length > chunkSize ∧ current ≠ [] then
      (pyJoin ['.', ' '] current ++ ['.']) ::
        splitChunksGo chunkSize rest [pyStrip f] (pyStrip f).length
    else
      splitChunksGo chunkSize rest (current ++ [pyStrip f]) (size + (pyStrip f).length)

/-- `TextToSpeechConverter.split_text_into_chunks` (`app.py` lines 70-94). -/
def split_text_into_chunks (chunkSize : Nat) (text : List Char) : List (List Char) :=
  splitChunksGo chunkSize (splitDotSpace text) [] 0

/-- The input normalization performed by `TextToSpeechConverter.convert`
(`app.py` line 107): `' '.join(file.read().strip().split())`. -/
def normalize (text : List Char) : List Char :=
  pyJoin [' '] (pyWords (pyStrip text))

/-- Remove every `'.'` from a word.  Used to state the spec's
"ignoring re-inserted punctuation": the chunker re-inserts only periods
(and the space / `". "` separators, which word-splitting already ignores). -/
def dropDots (w : List Char) : List Char :=
  w.filter (· ≠ '.')

/-- The word sequence of a text with periods ignored: whitespace-split words,
each with its periods removed, empty results dropped.  This is the
punctuation-insensitive word sequence that the order-preservation claim
compares. -/
def wordSeq (s : List Char) : List (List Char) :=
  ((splitWsAll s).map dropDots).filter (· ≠ [])

-- Sanity checks of the embedding on concrete inputs (mirror of the Python).
example : splitDotSpace "ab. cdefgh. ij.".data = ["ab".data, "cdefgh".data, "ij.".data] := by decide
example : splitDotSpace "a. . b".data = ["a".data, [], "b".data] := by decide
example : pyWords "  a bc  ".data = ["a".data, "bc".data] := by decide
example : pyStrip "  a bc  ".data = "a bc".data := by decide
example : split_text_into_chunks 50 "Hello world. This is a test.".data
    = ["Hello world. This is a test..".data] := by decide
example : split_text_into_chunks 5 "ab. cdefgh. ij.".data
    = ["cdefgh.".data, "ab. ij..".data] := by decide
example : split_text_into_chunks 10 "abc. def. ghi.".data
    = ["abc. def. ghi..".data] := by decide
example : wordSeq "ab. cdefgh. ij.".data = ["ab".data, "cdefgh".data, "ij".data] := by decide

/-! ## Basic facts about whitespace splitting -/

theorem wsStep_ne_nil (c : Char) (acc : List (List Char)) : wsStep c acc ≠ [] := by
  unfold wsStep
  rcases acc with _ | ⟨w, ws⟩ <;> split <;> simp

theorem wsGroupsAux_nil (init : List (List Char)) : wsGroupsAux [] init = init := rfl

theorem wsGroupsAux_cons (c : Char) (s : List Char) (init : List (List Char)) :
    wsGroupsAux (c :: s) init = wsStep c (wsGroupsAux s init) := rfl

theorem wsGroupsAux_ne_nil (s : List Char) (init : List (List Char)) (h : init ≠ []) :
    wsGroupsAux s init ≠ [] := by
  cases s with
  | nil => exact h
  | cons c t => rw [wsGroupsAux_cons]; exact wsStep_ne_nil _ _

theorem splitWsAll_ne_nil (s : List Char) : splitWsAll s ≠ [] :=
  wsGroupsAux_ne_nil _ _ (by simp)

theorem wsGroupsAux_append (u v : List Char) (init : List (List Char)) :
    wsGroupsAux (u ++ v) init = wsGroupsAux u (wsGroupsAux v init) :=
  List.foldr_append _ _ _ _

theorem splitWsAll_append (u v : List Char) :
    splitWsAll (u ++ v) = wsGroupsAux u (splitWsAll v) :=
  wsGroupsAux_append u v _

/-- Splitting with extra finished groups appended to the initial state just
carries those groups along unchanged. -/
theorem wsGroupsAux_cons_out (u : List Char) (x : List Char) (xs : List (List Char)) :
    wsGroupsAux u (x :: xs) = wsGroupsAux u [x] ++ xs := by
  induction u with
  | nil => rfl
  | cons c t ih =>
    rw [wsGroupsAux_cons, wsGroupsAux_cons, ih]
    rcases h : wsGroupsAux t [x] with _ | ⟨y, ys⟩
    · exact absurd h (wsGroupsAux_ne_nil _ _ (by simp))
    · unfold wsStep
      split <;> simp

theorem wsGroupsAux_append_single (u : List Char) (c : Char) (init : List (List Char)) :
    wsGroupsAux (u ++ [c]) init = wsGroupsAux u (wsStep c init) := by
  rw [wsGroupsAux_append]; rfl

/-- The groups of `u` continued into a single seed group `x`: all groups of
`u` except the last, then the last group of `u` extended by `x`. -/
theorem wsGroupsAux_single (u : List Char) (x : List Char) :
    wsGroupsAux u [x] = (splitWsAll u).dropLast ++ [(splitWsAll u).getLastD [] ++ x] := by
  induction u using List.reverseRecOn generalizing x with
  | nil => simp [wsGroupsAux, splitWsAll]
  | append_singleton t c ih =>
    by_cases hc : isWs c
    · have h1 : wsStep c [x] = [] :: [x] := by unfold wsStep; rw [if_pos hc]
      have h2 : wsStep c [([] : List Char)] = [] :: [([] : List Char)] := by
        unfold wsStep; rw [if_pos hc]
      have h3 : splitWsAll (t ++ [c]) = splitWsAll t ++ [[]] := by
        rw [show splitWsAll (t ++ [c]) = wsGroupsAux (t ++ [c]) [[]] from rfl,
          wsGroupsAux_append_single, h2, wsGroupsAux_cons_out]
        rfl
      rw [wsGroupsAux_append_single, h1, wsGroupsAux_cons_out, h3,
        List.dropLast_concat, List.getLastD_concat]
      rfl
    · have h1 : wsStep c [x] = [c :: x] := by unfold wsStep; rw [if_neg hc]
      have h2 : wsStep c [([] : List Char)] = [[c]] := by unfold wsStep; rw [if_neg hc]
      rw [wsGroupsAux_append_single, h1, ih,
        show splitWsAll (t ++ [c]) = wsGroupsAux (t ++ [c]) [[]] from rfl,
        wsGroupsAux_append_single, h2, ih]
      simp [List.getLastD_concat]

theorem dropLast_append_getLastD {α : Type} (l : List α) (d : α) (h : l ≠ []) :
    l.dropLast ++ [l.getLastD d] = l := by
  induction l using List.reverseRecOn with
  | nil => exact absurd rfl h
  | append_singleton t a _ => simp [List.getLastD_concat]

theorem splitWsAll_cons_ws (c : Char) (u : List Char) (h : isWs c) :
    splitWsAll (c :: u) = [] :: splitWsAll u := by
  show wsStep c (splitWsAll u) = _
  unfold wsStep; rw [if_pos h]

theorem splitWsAll_dot_space (v : List Char) :
    splitWsAll ('.' :: ' ' :: v) = ['.'] :: splitWsAll v := by
  show wsStep '.' (wsStep ' ' (splitWsAll v)) = _
  rw [show wsStep ' ' (splitWsAll v) = [] :: splitWsAll v from by unfold wsStep; rw [if_pos (by decide)]]
  unfold wsStep; rw [if_neg (by decide)]

theorem splitWsAll_single_dot : splitWsAll ['.'] = [['.']] := by decide

theorem splitWsAll_cons_not_ws (c : Char) (u : List Char) (hc : ¬ isWs c)
    {h0 : List Char} {t0 : List (List Char)} (hS : splitWsAll u = h0 :: t0) :
    splitWsAll (c :: u) = (c :: h0) :: t0 := by
  show wsStep c (splitWsAll u) = _
  rw [hS]; unfold wsStep; rw [if_neg hc]

/-- Every group produced by whitespace splitting is whitespace-free. -/
theorem splitWsAll_mem_no_ws (s : List Char) :
    ∀ w ∈ splitWsAll s, ∀ c ∈ w, isWs c = false := by
  induction s with
  | nil => intro w hw; simp [splitWsAll, wsGroupsAux] at hw; simp [hw]
  | cons c t ih =>
    intro w hw
    by_cases hc : isWs c
    · rw [splitWsAll_cons_ws c t hc] at hw
      rw [List.mem_cons] at hw
      rcases hw with hw | hw
      · simp [hw]
      · exact ih w hw
    · rcases hS : splitWsAll t with _ | ⟨h0, t0⟩
      · exact absurd hS (splitWsAll_ne_nil t)
      · rw [splitWsAll_cons_not_ws c t hc hS] at hw
        have hmem : ∀ v ∈ h0 :: t0, ∀ d ∈ v, isWs d = false := by
          intro v hv; exact ih v (by rw [hS]; exact hv)
        rw [List.mem_cons] at hw
        rcases hw with hw | hw
        · subst hw
          intro d hd
          rw [List.mem_cons] at hd
          rcases hd with hd | hd
          · subst hd; simpa using hc
          · exact hmem h0 (List.mem_cons_self _ _) d hd
        · exact hmem w (List.mem_cons_of_mem _ hw)

/-! ## Word sequences across separators, periods and stripping -/

theorem rdropWhile_append_rtakeWhile {α : Type} (p : α → Bool) (l : List α) :
    l.rdropWhile p ++ l.rtakeWhile p = l := by
  rw [List.rdropWhile, List.rtakeWhile, ← List.reverse_append,
    List.takeWhile_append_dropWhile, List.reverse_reverse]

/-- A whitespace character inside a concatenation is a hard group boundary. -/
theorem splitWsAll_append_ws_cons (u v : List Char) (c : Char) (hc : isWs c = true) :
    splitWsAll (u ++ c :: v) = splitWsAll u ++ splitWsAll v := by
  rw [splitWsAll_append, splitWsAll_cons_ws c v hc, wsGroupsAux_cons_out]
  rfl

theorem splitWsAll_append_dot_space (u v : List Char) :
    splitWsAll (u ++ '.' :: ' ' :: v)
      = ((splitWsAll u).dropLast ++ [(splitWsAll u).getLastD [] ++ ['.']]) ++ splitWsAll v := by
  rw [splitWsAll_append, splitWsAll_dot_space, wsGroupsAux_cons_out, wsGroupsAux_single]

theorem splitWsAll_append_dot (u : List Char) :
    splitWsAll (u ++ ['.'])
      = (splitWsAll u).dropLast ++ [(splitWsAll u).getLastD [] ++ ['.']] := by
  rw [splitWsAll_append, splitWsAll_single_dot, wsGroupsAux_single]

theorem dropDots_append (u v : List Char) : dropDots (u ++ v) = dropDots u ++ dropDots v :=
  List.filter_append _ _

theorem dropDots_append_dot (u : List Char) : dropDots (u ++ ['.']) = dropDots u := by
  rw [dropDots_append]; simp [dropDots]

/-- Mapping `dropDots` over the groups of `u` with the last group extended by
a period gives the same result as over the groups of `u` themselves. -/
theorem map_dropDots_dotted (u : List Char) :
    ((splitWsAll u).dropLast ++ [(splitWsAll u).getLastD [] ++ ['.']]).map dropDots
      = (splitWsAll u).map dropDots := by
  rw [List.map_append]
  have h1 : [(splitWsAll u).getLastD [] ++ ['.']].map dropDots
      = [(splitWsAll u).getLastD []].map dropDots := by
    simp [dropDots_append_dot]
  rw [h1, ← List.map_append, dropLast_append_getLastD _ _ (splitWsAll_ne_nil u)]

theorem wordSeq_nil : wordSeq [] = [] := by decide

theorem wordSeq_append_dot (u : List Char) : wordSeq (u ++ ['.']) = wordSeq u := by
  unfold wordSeq
  rw [splitWsAll_append_dot, map_dropDots_dotted]

theorem wordSeq_append_dot_space (u v : List Char) :
    wordSeq (u ++ '.' :: ' ' :: v) = wordSeq u ++ wordSeq v := by
  unfold wordSeq
  rw [splitWsAll_append_dot_space, List.map_append, map_dropDots_dotted, List.filter_append]

theorem wordSeq_append_ws_cons (u v : List Char) (c : Char) (hc : isWs c = true) :
    wordSeq (u ++ c :: v) = wordSeq u ++ wordSeq v := by
  unfold wordSeq
  rw [splitWsAll_append_ws_cons u v c hc, List.map_append, List.filter_append]

theorem pyWords_append_ws_cons (u v : List Char) (c : Char) (hc : isWs c = true) :
    pyWords (u ++ c :: v) = pyWords u ++ pyWords v := by
  unfold pyWords
  rw [splitWsAll_append_ws_cons u v c hc, List.filter_append]

theorem pyWords_all_ws (v : List Char) (hv : ∀ c ∈ v, isWs c = true) : pyWords v = [] := by
  induction v with
  | nil => rfl
  | cons c t ih =>
    have : pyWords (c :: t) = pyWords ([] ++ c :: t) := rfl
    rw [this, pyWords_append_ws_cons [] t c (hv c (List.mem_cons_self _ _))]
    rw [ih (fun d hd => hv d (List.mem_cons_of_mem _ hd))]
    rfl

theorem pyWords_ws_suffix (u v : List Char) (hv : ∀ c ∈ v, isWs c = true) :
    pyWords (u ++ v) = pyWords u := by
  cases v with
  | nil => simp
  | cons c t =>
    rw [pyWords_append_ws_cons u t c (hv c (List.mem_cons_self _ _)),
      pyWords_all_ws t (fun d hd => hv d (List.mem_cons_of_mem _ hd)), List.append_nil]

theorem pyWords_ws_lead (u v : List Char) (hv : ∀ c ∈ v, isWs c = true) :
    pyWords (v ++ u) = pyWords u := by
  cases v with
  | nil => simp
  | cons c t =>
    have : (c :: t) ++ u = [] ++ c :: (t ++ u) := by simp
    rw [this, pyWords_append_ws_cons [] (t ++ u) c (hv c (List.mem_cons_self _ _))]
    rw [pyWords_ws_lead u t (fun d hd => hv d (List.mem_cons_of_mem _ hd))]
    rfl

/-- Python `.split()` is insensitive to `.strip()` (`str.strip` only removes
boundary whitespace). -/
theorem pyWords_strip (s : List Char) : pyWords (pyStrip s) = pyWords s := by
  have hdecomp : s = s.takeWhile isWs ++ (pyStrip s ++ (s.dropWhile isWs).rtakeWhile isWs) := by
    rw [pyStrip, rdropWhile_append_rtakeWhile, List.takeWhile_append_dropWhile]
  conv_rhs => rw [hdecomp]
  rw [pyWords_ws_lead _ _ (fun d hd => List.mem_takeWhile_imp hd),
    pyWords_ws_suffix _ _ (fun d hd => List.mem_rtakeWhile_imp hd)]

theorem map_dropDots_filter (S : List (List Char)) :
    ((S.filter (· ≠ [])).map dropDots).filter (· ≠ [])
      = (S.map dropDots).filter (· ≠ []) := by
  induction S with
  | nil => rfl
  | cons w ws ih =>
    by_cases hw : w = ([] : List Char)
    · subst hw
      simpa [dropDots] using ih
    · simp only [List.filter_cons, List.map_cons]
      rw [if_pos (by simpa using hw)]
      simp only [List.map_cons, List.filter_cons]
      rw [ih]

theorem wordSeq_eq_pyWords (s : List Char) :
    wordSeq s = ((pyWords s).map dropDots).filter (· ≠ []) := by
  rw [wordSeq, pyWords, map_dropDots_filter]

theorem wordSeq_strip (s : List Char) : wordSeq (pyStrip s) = wordSeq s := by
  rw [wordSeq_eq_pyWords, wordSeq_eq_pyWords, pyWords_strip]

/-! ## Sentence splitting on the literal separator and joining back -/

theorem headCons_ne_nil (c : Char) (l : List (List Char)) : headCons c l ≠ [] := by
  unfold headCons
  rcases l with _ | ⟨w, ws⟩ <;> simp

theorem splitDotSpace_ne_nil (s : List Char) : splitDotSpace s ≠ [] := by
  match s with
  | [] => simp [splitDotSpace]
  | [c] => simp [splitDotSpace]
  | c :: d :: t =>
    unfold splitDotSpace
    split
    · simp
    · exact headCons_ne_nil _ _

theorem pyJoin_cons_cons (sep p q : List Char) (ps : List (List Char)) :
    pyJoin sep (p :: q :: ps) = p ++ sep ++ pyJoin sep (q :: ps) := rfl

theorem pyJoin_headCons (sep : List Char) (c : Char) (l : List (List Char)) (hl : l ≠ []) :
    pyJoin sep (headCons c l) = c :: pyJoin sep l := by
  rcases l with _ | ⟨w, ws⟩
  · exact absurd rfl hl
  · rcases ws with _ | ⟨q, qs⟩
    · rfl
    · rfl

/-- Joining the `". "`-split fragments back with `". "` restores the text:
`'. '.join(text.split('. ')) == text`. -/
theorem pyJoin_splitDotSpace (s : List Char) : pyJoin ['.', ' '] (splitDotSpace s) = s := by
  match s with
  | [] => rfl
  | [c] => rfl
  | c :: d :: t =>
    unfold splitDotSpace
    split
    · rename_i h
      obtain ⟨hc, hd⟩ := h
      subst hc; subst hd
      rcases hS : splitDotSpace t with _ | ⟨q, qs⟩
      · exact absurd hS (splitDotSpace_ne_nil t)
      · rw [pyJoin_cons_cons]
        have := pyJoin_splitDotSpace t
        rw [hS] at this
        rw [this]
        rfl
    · rw [pyJoin_headCons _ _ _ (splitDotSpace_ne_nil (d :: t)), pyJoin_splitDotSpace (d :: t)]

/-! ## Word sequences of joins -/

theorem wordSeq_join_dot_space (parts : List (List Char)) :
    wordSeq (pyJoin ['.', ' '] parts) = (parts.map wordSeq).flatten := by
  match parts with
  | [] => simp [pyJoin, wordSeq_nil]
  | [p] => simp [pyJoin]
  | p :: q :: ps =>
    rw [pyJoin_cons_cons]
    have : p ++ ['.', ' '] ++ pyJoin ['.', ' '] (q :: ps)
        = p ++ '.' :: ' ' :: pyJoin ['.', ' '] (q :: ps) := by simp
    rw [this, wordSeq_append_dot_space, wordSeq_join_dot_space (q :: ps)]
    simp

theorem wordSeq_join_space (parts : List (List Char)) :
    wordSeq (pyJoin [' '] parts) = (parts.map wordSeq).flatten := by
  match parts with
  | [] => simp [pyJoin, wordSeq_nil]
  | [p] => simp [pyJoin]
  | p :: q :: ps =>
    rw [pyJoin_cons_cons]
    have : p ++ [' '] ++ pyJoin [' '] (q :: ps)
        = p ++ ' ' :: pyJoin [' '] (q :: ps) := by simp
    rw [this, wordSeq_append_ws_cons _ _ ' ' (by decide), wordSeq_join_space (q :: ps)]
    simp

/-- The word sequence of a finished chunk (fragments joined with `". "`, with
the trailing period appended) is the concatenation of the fragments' word
sequences. -/
theorem wordSeq_chunk (parts : List (List Char)) :
    wordSeq (pyJoin ['.', ' '] parts ++ ['.']) = (parts.map wordSeq).flatten := by
  rw [wordSeq_append_dot, wordSeq_join_dot_space]

/-- The word sequence of a text is the concatenation of the word sequences of
its `". "`-split fragments. -/
theorem wordSeq_fragments (s : List Char) :
    wordSeq s = ((splitDotSpace s).map wordSeq).flatten := by
  conv_lhs => rw [← pyJoin_splitDotSpace s]
  rw [wordSeq_join_dot_space]

/-! ## Word sequences and normalization -/

theorem splitWsAll_of_no_ws (w : List Char) (hw : ∀ c ∈ w, isWs c = false) :
    splitWsAll w = [w] := by
  induction w with
  | nil => rfl
  | cons c t ih =>
    have hc : ¬ isWs c = true := by simp [hw c (List.mem_cons_self _ _)]
    exact splitWsAll_cons_not_ws c t hc (ih (fun d hd => hw d (List.mem_cons_of_mem _ hd)))

theorem wordSeq_word (w : List Char) (hw : ∀ c ∈ w, isWs c = false) :
    wordSeq w = [dropDots w].filter (· ≠ []) := by
  rw [wordSeq, splitWsAll_of_no_ws w hw]
  rfl

theorem flatten_map_wordSeq (W : List (List Char)) (hW : ∀ w ∈ W, ∀ c ∈ w, isWs c = false) :
    (W.map wordSeq).flatten = (W.map dropDots).filter (· ≠ []) := by
  induction W with
  | nil => rfl
  | cons w ws ih =>
    simp only [List.map_cons, List.flatten_cons, List.filter_cons]
    rw [wordSeq_word w (hW w (List.mem_cons_self _ _)),
      ih (fun v hv => hW v (List.mem_cons_of_mem _ hv))]
    by_cases h : dropDots w = ([] : List Char)
    · rw [if_neg (by simpa using h)]
      simp [List.filter_cons, h]
    · rw [if_pos (by simpa using h)]
      simp [List.filter_cons, h]

theorem flatten_wordSeq_pyWords (s : List Char) :
    ((pyWords s).map wordSeq).flatten = wordSeq s := by
  have hmem : ∀ w ∈ pyWords s, ∀ c ∈ w, isWs c = false := by
    intro w hw
    exact splitWsAll_mem_no_ws s w (List.mem_of_mem_filter hw)
  rw [flatten_map_wordSeq _ hmem, ← wordSeq_eq_pyWords]

/-- Normalization (whitespace collapsing) does not change the word sequence. -/
theorem wordSeq_normalize (t : List Char) : wordSeq (normalize t) = wordSeq t := by
  rw [normalize, wordSeq_join_space, flatten_wordSeq_pyWords, wordSeq_strip]

/-! ## Order preservation of the chunker (for fragments within the size bound) -/

/-- When no stripped fragment exceeds the chunk size, the packing loop emits,
in document order, exactly the words of the pending accumulator followed by
the words of the remaining fragments. -/
theorem splitChunksGo_wordSeq (chunkSize : Nat) (frags : List (List Char))
    (current : List (List Char)) (size : Nat)
    (hfr : ∀ f ∈ frags, (pyStrip f).length ≤ chunkSize) :
    ((splitChunksGo chunkSize frags current size).map wordSeq).flatten
      = (current.map wordSeq).flatten ++ (frags.map wordSeq).flatten := by
  induction frags generalizing current size with
  | nil =>
    by_cases hcur : current = []
    · subst hcur; simp [splitChunksGo]
    · simp only [splitChunksGo, if_neg hcur]
      simp [wordSeq_chunk]
  | cons f rest ih =>
    have hf : (pyStrip f).length ≤ chunkSize := hfr f (List.mem_cons_self _ _)
    have hrest : ∀ g ∈ rest, (pyStrip g).length ≤ chunkSize :=
      fun g hg => hfr g (List.mem_cons_of_mem _ hg)
    by_cases h1 : pyStrip f = []
    · rw [splitChunksGo, if_pos h1, ih _ _ hrest]
      have hwf : wordSeq f = [] := by rw [← wordSeq_strip, h1, wordSeq_nil]
      simp [hwf]
    · have h2 : ¬ (pyStrip f).length > chunkSize := by omega
      by_cases h3 : size + (pyStrip f).length > chunkSize ∧ current ≠ []
      · rw [splitChunksGo, if_neg h1, if_neg h2, if_pos h3]
        simp only [List.map_cons, List.flatten_cons]
        rw [ih _ _ hrest, wordSeq_chunk]
        simp [wordSeq_strip]
      · rw [splitChunksGo, if_neg h1, if_neg h2, if_neg h3]
        rw [ih _ _ hrest]
        simp [wordSeq_strip]

/-- Order preservation, restricted to inputs in which no `". "`-split
fragment exceeds the chunk size after stripping (so that the out-of-order
`_split_sentence` branch is never taken). -/
theorem split_text_into_chunks_wordSeq (chunkSize : Nat) (text : List Char)
    (H : ∀ f ∈ splitDotSpace text, (pyStrip f).length ≤ chunkSize) :
    ((split_text_into_chunks chunkSize text).map wordSeq).flatten
      = wordSeq (normalize text) := by
  rw [split_text_into_chunks, splitChunksGo_wordSeq _ _ _ _ H, wordSeq_normalize,
    wordSeq_fragments]
  rfl

/-! ## Size bounds of the chunker -/

theorem pyJoin_length (sep : List Char) (parts : List (List Char)) (h : parts ≠ []) :
    (pyJoin sep parts).length
      = (parts.map List.length).sum + sep.length * (parts.length - 1) := by
  match parts with
  | [] => exact absurd rfl h
  | [p] => simp [pyJoin]
  | p :: q :: ps =>
    rw [pyJoin_cons_cons]
    have ih := pyJoin_length sep (q :: ps) (by simp)
    simp only [List.length_append, List.map_cons, List.sum_cons, List.length_cons,
      Nat.add_sub_cancel, Nat.mul_add, Nat.mul_one] at ih ⊢
    omega

/-- Bound on the chunks emitted by the word-packing loop: content at most
`chunkSize + 1` characters, plus the trailing period. -/
theorem splitSentenceGo_length_le (chunkSize : Nat) (words temp : List (List Char)) (size : Nat)
    (hw : ∀ w ∈ words, w.length ≤ chunkSize)
    (h0 : temp = [] → size = 0)
    (h1 : temp ≠ [] → (temp.map List.length).sum + temp.length ≤ size + 1 ∧ size ≤ chunkSize + 1) :
    ∀ c ∈ splitSentenceGo chunkSize words temp size, c.length ≤ chunkSize + 2 := by
  induction words generalizing temp size with
  | nil =>
    intro c hc
    by_cases ht : temp = []
    · simp [splitSentenceGo, ht] at hc
    · simp only [splitSentenceGo, if_neg ht, List.mem_singleton] at hc
      subst hc
      obtain ⟨hsum, hsz⟩ := h1 ht
      have hK : 1 ≤ temp.length := List.length_pos.mpr ht
      rw [List.length_append, pyJoin_length _ _ ht]
      simp only [List.length_singleton, List.length_singleton]
      omega
  | cons w ws ih =>
    intro c hc
    have hwle : w.length ≤ chunkSize := hw w (List.mem_cons_self _ _)
    have hws : ∀ v ∈ ws, v.length ≤ chunkSize := fun v hv => hw v (List.mem_cons_of_mem _ hv)
    by_cases hcond : size + w.length > chunkSize ∧ temp ≠ []
    · rw [splitSentenceGo, if_pos hcond] at hc
      rw [List.mem_cons] at hc
      rcases hc with hc | hc
      · subst hc
        obtain ⟨hsum, hsz⟩ := h1 hcond.2
        have hK : 1 ≤ temp.length := List.length_pos.mpr hcond.2
        rw [List.length_append, pyJoin_length _ _ hcond.2]
        simp only [List.length_singleton]
        omega
      · refine ih [w] w.length (fun v hv => hws v hv) (by simp) (fun _ => ?_) c hc
        simp
        omega
    · rw [splitSentenceGo, if_neg hcond] at hc
      refine ih (temp ++ [w]) (size + w.length + 1) hws (by simp) (fun _ => ?_) c hc
      constructor
      · by_cases ht : temp = []
        · subst ht; simp; omega
        · obtain ⟨hsum, _⟩ := h1 ht
          simp only [List.map_append, List.sum_append, List.length_append]
          simp
          omega
      · by_cases ht : temp = []
        · have := h0 ht; omega
        · obtain ⟨_, hsz⟩ := h1 ht
          rcases Decidable.not_and_iff_or_not.mp hcond with hle | hne
          · omega
          · exact absurd ht hne

theorem splitSentence_length_le (chunkSize : Nat) (sentence : List Char)
    (hw : ∀ w ∈ pyWords sentence, w.length ≤ chunkSize) :
    ∀ c ∈ splitSentence chunkSize sentence, c.length ≤ chunkSize + 2 :=
  splitSentenceGo_length_le chunkSize (pyWords sentence) [] 0 hw (fun _ => rfl)
    (fun h => absurd rfl h)

/-- Every whitespace group of `u` is dominated in length by a whitespace
group of `u ++ v` (the last group may grow by absorption of a prefix of `v`). -/
theorem splitWsAll_le_append (u v : List Char) :
    ∀ w ∈ splitWsAll u, ∃ x ∈ splitWsAll (u ++ v), w.length ≤ x.length := by
  intro w hw
  rcases hv : splitWsAll v with _ | ⟨h0, t0⟩
  · exact absurd hv (splitWsAll_ne_nil v)
  rw [splitWsAll_append, hv, wsGroupsAux_cons_out, wsGroupsAux_single]
  rw [← dropLast_append_getLastD (splitWsAll u) [] (splitWsAll_ne_nil u),
    List.mem_append] at hw
  rcases hw with hw | hw
  · exact ⟨w, by simp [hw], le_refl _⟩
  · rw [List.mem_singleton] at hw
    subst hw
    exact ⟨(splitWsAll u).getLastD [] ++ h0, by simp, by simp⟩

/-- Every whitespace group of `t` is dominated in length by a whitespace
group of `c :: t`. -/
theorem splitWsAll_le_cons (c : Char) (t : List Char) :
    ∀ w ∈ splitWsAll t, ∃ x ∈ splitWsAll (c :: t), w.length ≤ x.length := by
  intro w hw
  by_cases hc : isWs c
  · exact ⟨w, by rw [splitWsAll_cons_ws c t hc]; exact List.mem_cons_of_mem _ hw, le_refl _⟩
  · rcases hS : splitWsAll t with _ | ⟨h0, t0⟩
    · exact absurd hS (splitWsAll_ne_nil t)
    · rw [splitWsAll_cons_not_ws c t hc hS]
      rw [hS, List.mem_cons] at hw
      rcases hw with hw | hw
      · subst hw
        exact ⟨c :: w, List.mem_cons_self _ _, by simp⟩
      · exact ⟨w, List.mem_cons_of_mem _ hw, le_refl _⟩

/-- Every whitespace group of a `". "`-split fragment of `s` is dominated in
length by a whitespace group of `s` itself (splitting only removes a period
glued to the end of a group). -/
theorem splitWsAll_fragment_le (s : List Char) :
    ∀ f ∈ splitDotSpace s, ∀ w ∈ splitWsAll f, ∃ x ∈ splitWsAll s, w.length ≤ x.length := by
  match s with
  | [] =>
    intro f hf w hw
    simp [splitDotSpace] at hf
    subst hf
    exact ⟨w, hw, le_refl _⟩
  | [c] =>
    intro f hf w hw
    simp [splitDotSpace] at hf
    subst hf
    exact ⟨w, hw, le_refl _⟩
  | c :: d :: t =>
    intro f hf w hw
    by_cases hsep : c = '.' ∧ d = ' '
    · obtain ⟨hc, hd⟩ := hsep
      subst hc; subst hd
      rw [show splitDotSpace ('.' :: ' ' :: t) = [] :: splitDotSpace t from by
          rw [splitDotSpace, if_pos ⟨rfl, rfl⟩], List.mem_cons] at hf
      rcases hf with hf | hf
      · subst hf
        simp [splitWsAll, wsGroupsAux] at hw
        subst hw
        exact ⟨['.'], by rw [splitWsAll_dot_space]; exact List.mem_cons_self _ _, by simp⟩
      · obtain ⟨x, hx, hle⟩ := splitWsAll_fragment_le t f hf w hw
        exact ⟨x, by rw [splitWsAll_dot_space]; exact List.mem_cons_of_mem _ hx, hle⟩
    · rcases hS : splitDotSpace (d :: t) with _ | ⟨w0, ws0⟩
      · exact absurd hS (splitDotSpace_ne_nil (d :: t))
      rw [show splitDotSpace (c :: d :: t) = headCons c (splitDotSpace (d :: t)) from by
          rw [splitDotSpace, if_neg hsep], hS] at hf
      simp only [headCons, List.mem_cons] at hf
      rcases hf with hf | hf
      · subst hf
        have hjoin := pyJoin_splitDotSpace (d :: t)
        rw [hS] at hjoin
        obtain ⟨r, hr⟩ : ∃ r, d :: t = w0 ++ r := by
          rcases ws0 with _ | ⟨q, qs⟩
          · exact ⟨[], by rw [← hjoin]; simp [pyJoin]⟩
          · exact ⟨['.', ' '] ++ pyJoin ['.', ' '] (q :: qs), by
              rw [← hjoin, pyJoin_cons_cons]; simp⟩
        have : c :: d :: t = (c :: w0) ++ r := by rw [hr]; rfl
        rw [this]
        exact splitWsAll_le_append (c :: w0) r w hw
      · obtain ⟨x, hx, hle⟩ := splitWsAll_fragment_le (d :: t) f (by rw [hS]; exact List.mem_cons_of_mem _ hf) w hw
        obtain ⟨y, hy, hle2⟩ := splitWsAll_le_cons c (d :: t) x hx
        exact ⟨y, hy, le_trans hle hle2⟩

/-- Bound on the chunks emitted by the sentence-packing loop: since the
running size counter ignores the two-character `". "` separators, a packed
chunk can reach `3 * chunkSize - 2` content characters, and a word-split
chunk `chunkSize + 1`; all chunks (trailing period included) stay within
`3 * chunkSize + 1`. -/
theorem splitChunksGo_length_le (chunkSize : Nat) (hcs : 1 ≤ chunkSize)
    (frags : List (List Char)) (current : List (List Char)) (size : Nat)
    (hfr : ∀ f ∈ frags, ∀ w ∈ pyWords (pyStrip f), w.length ≤ chunkSize)
    (hacc : ∀ a ∈ current, a ≠ [])
    (hsz : size = (current.map List.length).sum)
    (hszb : size ≤ chunkSize) :
    ∀ c ∈ splitChunksGo chunkSize frags current size, c.length ≤ 3 * chunkSize + 1 := by
  induction frags generalizing current size with
  | nil =>
    intro c hc
    by_cases hcur : current = []
    · simp [splitChunksGo, hcur] at hc
    · simp only [splitChunksGo, if_neg hcur, List.mem_singleton] at hc
      subst hc
      have hK : 1 ≤ current.length := List.length_pos.mpr hcur
      have hKsum : current.length ≤ (current.map List.length).sum := by
        have h1 := List.length_le_sum_of_one_le (current.map List.length) (by
          intro i hi
          rw [List.mem_map] at hi
          obtain ⟨a, ha, rfl⟩ := hi
          exact List.length_pos.mpr (hacc a ha))
        simpa using h1
      rw [List.length_append, pyJoin_length _ _ hcur]
      simp only [List.length_singleton, List.length_cons, List.length_nil]
      omega
  | cons f rest ih =>
    intro c hc
    have hfr1 : ∀ w ∈ pyWords (pyStrip f), w.length ≤ chunkSize :=
      hfr f (List.mem_cons_self _ _)
    have hfrest : ∀ g ∈ rest, ∀ w ∈ pyWords (pyStrip g), w.length ≤ chunkSize :=
      fun g hg => hfr g (List.mem_cons_of_mem _ hg)
    by_cases h1 : pyStrip f = []
    · rw [splitChunksGo, if_pos h1] at hc
      exact ih current size hfrest hacc hsz hszb c hc
    · by_cases h2 : (pyStrip f).length > chunkSize
      · rw [splitChunksGo, if_neg h1, if_pos h2, List.mem_append] at hc
        rcases hc with hc | hc
        · have := splitSentence_length_le chunkSize (pyStrip f) hfr1 c hc
          omega
        · exact ih current size hfrest hacc hsz hszb c hc
      · by_cases h3 : size + (pyStrip f).length > chunkSize ∧ current ≠ []
        · rw [splitChunksGo, if_neg h1, if_neg h2, if_pos h3, List.mem_cons] at hc
          rcases hc with hc | hc
          · subst hc
            have hcur := h3.2
            have hK : 1 ≤ current.length := List.length_pos.mpr hcur
            have hKsum : current.length ≤ (current.map List.length).sum := by
              have hone := List.length_le_sum_of_one_le (current.map List.length) (by
                intro i hi
                rw [List.mem_map] at hi
                obtain ⟨a, ha, rfl⟩ := hi
                exact List.length_pos.mpr (hacc a ha))
              simpa using hone
            rw [List.length_append, pyJoin_length _ _ hcur]
            simp only [List.length_singleton, List.length_cons, List.length_nil]
            omega
          · refine ih [pyStrip f] (pyStrip f).length hfrest ?_ (by simp) (by omega) c hc
            intro a ha
            rw [List.mem_singleton] at ha
            subst ha
            exact h1
        · rw [splitChunksGo, if_neg h1, if_neg h2, if_neg h3] at hc
          refine ih (current ++ [pyStrip f]) (size + (pyStrip f).length) hfrest ?_ ?_ ?_ c hc
          · intro a ha
            rw [List.mem_append, List.mem_singleton] at ha
            rcases ha with ha | ha
            · exact hacc a ha
            · subst ha; exact h1
          · simp [hsz]
          · rcases Decidable.not_and_iff_or_not.mp h3 with hle | hne
            · omega
            · have hcur : current = [] := by
                by_contra hk
                exact hne hk
              subst hcur
              simp at hsz
              omega

/-- The uniform chunk-length bound for `split_text_into_chunks` under the
claim's hypotheses (`chunk_size ≥ 1`, no word of the input longer than
`chunk_size`): every chunk, trailing period included, has length at most
`3 * chunk_size + 1`, i.e. content length at most `3 * chunk_size`. -/
theorem split_text_into_chunks_length_le (chunkSize : Nat) (text : List Char)
    (hcs : 1 ≤ chunkSize)
    (hw : ∀ w ∈ splitWsAll text, w.length ≤ chunkSize) :
    ∀ c ∈ split_text_into_chunks chunkSize text, c.length ≤ 3 * chunkSize + 1 := by
  refine splitChunksGo_length_le chunkSize hcs (splitDotSpace text) [] 0 ?_
    (by intro a ha; simp at ha) rfl (by omega)
  intro f hf w hww
  rw [pyWords_strip] at hww
  obtain ⟨x, hx, hle⟩ := splitWsAll_fragment_le text f hf w (List.mem_of_mem_filter hww)
  exact le_trans hle (hw x hx)

/-! ## Shape of emitted chunks (non-empty, period-terminated) -/

theorem splitSentenceGo_shape (chunkSize : Nat) (words temp : List (List Char)) (size : Nat) :
    ∀ c ∈ splitSentenceGo chunkSize words temp size, ∃ u, c = u ++ ['.'] := by
  induction words generalizing temp size with
  | nil =>
    intro c hc
    by_cases ht : temp = []
    · simp [splitSentenceGo, ht] at hc
    · simp only [splitSentenceGo, if_neg ht, List.mem_singleton] at hc
      exact ⟨_, hc⟩
  | cons w ws ih =>
    intro c hc
    by_cases hcond : size + w.length > chunkSize ∧ temp ≠ []
    · rw [splitSentenceGo, if_pos hcond, List.mem_cons] at hc
      rcases hc with hc | hc
      · exact ⟨_, hc⟩
      · exact ih _ _ c hc
    · rw [splitSentenceGo, if_neg hcond] at hc
      exact ih _ _ c hc

theorem splitChunksGo_shape (chunkSize : Nat) (frags current : List (List Char)) (size : Nat) :
    ∀ c ∈ splitChunksGo chunkSize frags current size, ∃ u, c = u ++ ['.'] := by
  induction frags generalizing current size with
  | nil =>
    intro c hc
    by_cases hcur : current = []
    · simp [splitChunksGo, hcur] at hc
    · simp only [splitChunksGo, if_neg hcur, List.mem_singleton] at hc
      exact ⟨_, hc⟩
  | cons f rest ih =>
    intro c hc
    by_cases h1 : pyStrip f = []
    · rw [splitChunksGo, if_pos h1] at hc
      exact ih _ _ c hc
    · by_cases h2 : (pyStrip f).length > chunkSize
      · rw [splitChunksGo, if_neg h1, if_pos h2, List.mem_append] at hc
        rcases hc with hc | hc
        · exact splitSentenceGo_shape _ _ _ _ c hc
        · exact ih _ _ c hc
      · by_cases h3 : size + (pyStrip f).length > chunkSize ∧ current ≠ []
        · rw [splitChunksGo, if_neg h1, if_neg h2, if_pos h3, List.mem_cons] at hc
          rcases hc with hc | hc
          · exact ⟨_, hc⟩
          · exact ih _ _ c hc
        · rw [splitChunksGo, if_neg h1, if_neg h2, if_neg h3] at hc
          exact ih _ _ c hc

/-! ## The English tokenizer (`nix/tokenizers/tokenizer_en.py`) and
`NixTTSInference` (`nix/models/TTS.py`) -/

/-- Python `str.lower()` (character-wise lowercasing; ASCII suffices for the
claims' inputs). -/
def pyLower (s : List Char) : List Char :=
  s.map Char.toLower

/-- Replacement of every non-overlapping occurrence of the literal pattern
`p` by `r`, scanning left to right; `skip` counts pattern characters still to
be consumed after a match.  This is Python `re.sub(p, r, ·)` for a literal
pattern. -/
def pyReplaceGo (p r : List Char) : List Char → Nat → List Char
  | [], _ => []
  | _ :: t, skip + 1 => pyReplaceGo p r t skip
  | c :: t, 0 =>
    if p ≠ [] ∧ p.isPrefixOf (c :: t) then r ++ pyReplaceGo p r t (p.length - 1)
    else c :: pyReplaceGo p r t 0

/-- Python `re.sub(p, r, s)` for a literal pattern `p`. -/
def pyReplace (p r s : List Char) : List Char :=
  pyReplaceGo p r s 0

/-- `NixTokenizerEN._expand_abbreviations` (`tokenizer_en.py` lines 87-99):
apply the ordered rule list, each rule rewriting the output of the previous
ones.  The rule list itself (`abbreviations_regex`) is an external
configuration artifact. Modelled from the spec: "an ordered list of
abbreviation-expansion substitution rules (each rule: a pattern and its
replacement, applied in the supplied order)"; patterns are modelled as
literal strings. -/
def _expand_abbreviations (rules : List (List Char × List Char)) (text : List Char) : List Char :=
  rules.foldl (fun t pr => pyReplace pr.1 pr.2 t) text

/-- `NixTokenizerEN._collapse_whitespace` (`tokenizer_en.py` lines 101-111).
Modelled from the spec: the externally supplied `whitespace_regex` is a
whitespace-collapsing pattern; every maximal whitespace run is replaced by a
single space.  The flag records whether the previous character was part of a
whitespace run. -/
def collapseWsGo : List Char → Bool → List Char
  | [], _ => []
  | c :: t, prevWs =>
    if isWs c then
      if prevWs then collapseWsGo t true else ' ' :: collapseWsGo t true
    else c :: collapseWsGo t false

def _collapse_whitespace (s : List Char) : List Char :=
  collapseWsGo s false

/-- `NixTokenizerEN._intersperse` (`tokenizer_en.py` lines 113-126):
`result = [item] * (len(lst) * 2 + 1); result[1::2] = lst`, so the result
holds `item` at every even index and the elements of `lst` at the odd
indices, in order. -/
def _intersperse (lst : List Int) (item : Int) : List Int :=
  item :: lst.flatMap (fun x => [x, item])

/-- `NixTokenizerEN._pad_tokens` (`tokenizer_en.py` lines 128-143).  Python's
`max` on an empty batch raises `ValueError`, modelled as `none`. -/
def _pad_tokens (tokens : List (List Int)) : Option (List (List Int) × List Nat) :=
  if tokens = [] then none
  else
    some (tokens.map (fun t =>
        t ++ List.replicate (((tokens.map List.length).foldr max 0) - t.length) 0),
      tokens.map List.length)

/-- The error conditions of the tokenization path. -/
inductive TokErr where
  | validation
  | vocabLookup
  | emptyBatch
deriving DecidableEq

/-- The text handed to the phonemizer collaborator
(`tokenizer_en.py` line 68): `self._expand_abbreviations(text.lower())` —
lowercasing happens before abbreviation expansion. -/
def phonemizerInput (rules : List (List Char × List Char)) (text : List Char) : List Char :=
  _expand_abbreviations rules (pyLower text)

/-- `NixTokenizerEN.__call__` (`tokenizer_en.py` lines 51-85) over a batch of
texts.  `phonemize` is the external espeak collaborator; `vocab` is the
external `vocab_dict`, `none` modelling a `KeyError` for a missing phoneme. -/
def nixTokenizerCall (rules : List (List Char × List Char))
    (phonemize : List Char → List Char) (vocab : Char → Option Int)
    (texts : List (List Char)) :
    Except TokErr (List (List Int) × List Nat × List (List Char)) :=
  let phonemes := texts.map fun text => _collapse_whitespace (phonemize (phonemizerInput rules text))
  match phonemes.mapM (fun phoneme => phoneme.mapM vocab) with
  | none => .error .vocabLookup
  | some mapped =>
    match _pad_tokens (mapped.map (fun m => _intersperse m 0)) with
    | none => .error .emptyBatch
    | some (padded, lengths) => .ok (padded, lengths, phonemes)

/-- `NixTTSInference.tokenize` (`TTS.py` lines 59-83):
`if not text or not text.strip(): raise ValueError(...)`, then a batch-of-one
call into the tokenizer. -/
def tokenize (rules : List (List Char × List Char)) (phonemize : List Char → List Char)
    (vocab : Char → Option Int) (text : List Char) :
    Except TokErr (List (List Int) × List Nat × List (List Char)) :=
  if text = [] ∨ pyStrip text = [] then .error .validation
  else nixTokenizerCall rules phonemize vocab [text]

/-- Whether a tokenization outcome is the input-validation error. -/
def isValidationError {α : Type} : Except TokErr α → Bool
  | .error .validation => true
  | _ => false

/-! ## Audio assembly (`app.py` lines 104-125) -/

/-- Python `int()` on a rational: truncation toward zero. -/
def pyInt (q : ℚ) : Int :=
  if 0 ≤ q then ⌊q⌋ else ⌈q⌉

/-- The silence-segment sample count computed by `convert` (`app.py`
line 115): `int(self.sample_rate * self.silence_duration)` — a truncation,
not a rounding. -/
def silenceSamples (sampleRate : Nat) (silenceDuration : ℚ) : Nat :=
  (pyInt ((sampleRate : ℚ) * silenceDuration)).toNat

/-- Modelled from the spec: the claimed silence-segment length
`round(sample_rate * silence_duration)`, with Python's `round`
(nearest integer, ties to even). -/
def specSilenceSamples (sampleRate : Nat) (silenceDuration : ℚ) : Nat :=
  (let q := (sampleRate : ℚ) * silenceDuration
   if q - ⌊q⌋ < 1/2 then ⌊q⌋
   else if (1:ℚ)/2 < q - ⌊q⌋ then ⌊q⌋ + 1
   else if Even ⌊q⌋ then ⌊q⌋ else ⌊q⌋ + 1).toNat

/-- `np.concatenate` raises `ValueError` on an empty list of arrays;
modelled as `none`. -/
def npConcatenate {α : Type} (arrs : List (List α)) : Option (List α) :=
  if arrs.isEmpty then none else some arrs.flatten

/-- The assembly loop of `convert` (`app.py` lines 113-124): for each chunk,
append its audio then the silence segment, then concatenate everything.
`chunkAudio` is the opaque per-chunk synthesis collaborator
(`process_chunk`, lines 41-48); samples are modelled as `ℚ`. -/
def convertAssemble (chunkAudio : List Char → List ℚ) (sampleRate : Nat)
    (silenceDuration : ℚ) (chunks : List (List Char)) : Option (List ℚ) :=
  npConcatenate (chunks.flatMap fun c =>
    [chunkAudio c, List.replicate (silenceSamples sampleRate silenceDuration) 0])

/-- `TextToSpeechConverter.convert` (`app.py` lines 96-130), from the
normalized input text to the combined waveform (file I/O elided). -/
def convert (chunkAudio : List Char → List ℚ) (chunkSize sampleRate : Nat)
    (silenceDuration : ℚ) (text : List Char) : Option (List ℚ) :=
  convertAssemble chunkAudio sampleRate silenceDuration
    (split_text_into_chunks chunkSize (normalize text))

-- Sanity checks of the tokenizer embedding.
example : pyReplace "mr.".data "mister".data "dr. mr. x".data = "dr. mister x".data := by decide
example : phonemizerInput [("mr.".data, "mister".data)] "Mr. Smith".data
    = "mister smith".data := by decide
example : phonemizerInput [("Mr.".data, "Mister".data)] "Mr. Smith".data
    = "mr. smith".data := by decide
example : _intersperse [5, 7] 0 = [0, 5, 0, 7, 0] := by decide
example : _pad_tokens [[1], [2, 3]] = some ([[1, 0], [2, 3]], [1, 2]) := by decide
example : silenceSamples 1 (3/4) = 0 := by
  rw [silenceSamples, pyInt, if_pos (by norm_num)]
  norm_num
example : specSilenceSamples 1 (3/4) = 1 := by
  rw [specSilenceSamples]
  norm_num
example : silenceSamples 22050 (1/10) = 2205 := by
  rw [silenceSamples, pyInt, if_pos (by norm_num)]
  norm_num
  omega

/-! ## Properties of interspersion, padding, validation and assembly -/

theorem intersperse_cons (x item : Int) (l : List Int) :
    _intersperse (x :: l) item = item :: x :: _intersperse l item := rfl

theorem intersperse_length (lst : List Int) (item : Int) :
    (_intersperse lst item).length = 2 * lst.length + 1 := by
  induction lst with
  | nil => rfl
  | cons x l ih =>
    rw [intersperse_cons]
    simp only [List.length_cons, ih]
    omega

theorem intersperse_odd (lst : List Int) (item : Int) :
    ∀ i, i < lst.length → (_intersperse lst item)[2 * i + 1]? = lst[i]? := by
  induction lst with
  | nil => intro i hi; simp at hi
  | cons x l ih =>
    intro i hi
    rw [intersperse_cons]
    cases i with
    | zero => simp
    | succ j =>
      have harith : 2 * (j + 1) + 1 = (2 * j + 1) + 1 + 1 := by omega
      rw [harith, List.getElem?_cons_succ, List.getElem?_cons_succ,
        List.getElem?_cons_succ, ih j (by simpa using hi)]

theorem intersperse_even (lst : List Int) (item : Int) :
    ∀ j, j ≤ lst.length → (_intersperse lst item)[2 * j]? = some item := by
  induction lst with
  | nil =>
    intro j hj
    have : j = 0 := by simpa using hj
    subst this
    rfl
  | cons x l ih =>
    intro j hj
    rw [intersperse_cons]
    cases j with
    | zero => rfl
    | succ k =>
      have harith : 2 * (k + 1) = (2 * k) + 1 + 1 := by omega
      rw [harith, List.getElem?_cons_succ, List.getElem?_cons_succ,
        ih k (by simpa using hj)]

theorem le_foldr_max (l : List Nat) : ∀ x ∈ l, x ≤ l.foldr max 0 := by
  induction l with
  | nil => intro x hx; simp at hx
  | cons a t ih =>
    intro x hx
    rw [List.mem_cons] at hx
    rcases hx with hx | hx
    · subst hx; exact le_max_left _ _
    · exact le_trans (ih x hx) (le_max_right _ _)

/-- The padding invariant of `_pad_tokens` on a non-empty batch: the returned
lengths are the true pre-pad lengths, and every row is its original token
sequence right-padded with zeros up to the maximum pre-pad length. -/
theorem pad_tokens_spec (tokens : List (List Int)) (h : tokens ≠ []) :
    ∃ padded lengths, _pad_tokens tokens = some (padded, lengths)
      ∧ lengths = tokens.map List.length
      ∧ (∀ i, i < tokens.length → ∃ t, tokens[i]? = some t
          ∧ lengths[i]? = some t.length
          ∧ t.length ≤ (tokens.map List.length).foldr max 0
          ∧ padded[i]? = some (t ++
              List.replicate (((tokens.map List.length).foldr max 0) - t.length) 0)
          ∧ (t ++ List.replicate (((tokens.map List.length).foldr max 0) - t.length) 0).length
              = (tokens.map List.length).foldr max 0) := by
  refine ⟨_, _, by rw [_pad_tokens, if_neg h], rfl, ?_⟩
  intro i hi
  obtain ⟨t, ht⟩ : ∃ t, tokens[i]? = some t := ⟨tokens[i], List.getElem?_eq_getElem hi⟩
  have hmem : t ∈ tokens := List.getElem?_mem ht
  have hle : t.length ≤ (tokens.map List.length).foldr max 0 :=
    le_foldr_max _ _ (by rw [List.mem_map]; exact ⟨t, hmem, rfl⟩)
  refine ⟨t, ht, by simp [List.getElem?_map, ht], hle, by simp [List.getElem?_map, ht], ?_⟩
  simp
  omega

/-- The batch tokenizer itself never raises the input-validation error: that
check lives only in `NixTTSInference.tokenize`. -/
theorem isValidationError_nixTokenizerCall (rules : List (List Char × List Char))
    (phonemize : List Char → List Char) (vocab : Char → Option Int)
    (texts : List (List Char)) :
    isValidationError (nixTokenizerCall rules phonemize vocab texts) = false := by
  rw [nixTokenizerCall]
  split
  · rfl
  · split
    · rfl
    · rfl

/-- `tokenize` raises the validation error exactly on post-trim-empty input. -/
theorem tokenize_validation_iff (rules : List (List Char × List Char))
    (phonemize : List Char → List Char) (vocab : Char → Option Int) (text : List Char) :
    isValidationError (tokenize rules phonemize vocab text) = (pyStrip text == []) := by
  by_cases h : text = [] ∨ pyStrip text = []
  · rw [tokenize, if_pos h]
    have hs : pyStrip text = [] := by
      rcases h with h | h
      · subst h; rfl
      · exact h
    simp [isValidationError, hs]
  · rw [tokenize, if_neg h, isValidationError_nixTokenizerCall]
    push_neg at h
    simp [h.2]

/-! ## Assembly facts -/

theorem flatMap_pair_flatten {α : Type} (audio : List Char → List α) (sil : List α)
    (chunks : List (List Char)) :
    (chunks.flatMap fun c => [audio c, sil]).flatten
      = (chunks.map fun c => audio c ++ sil).flatten := by
  induction chunks with
  | nil => rfl
  | cons c cs ih => simp [List.flatMap_cons, ih]

theorem flatten_audio_length {α : Type} (audio : List Char → List α) (sil : List α)
    (chunks : List (List Char)) :
    ((chunks.map fun c => audio c ++ sil).flatten).length
      = (chunks.map fun c => (audio c).length).sum + chunks.length * sil.length := by
  induction chunks with
  | nil => simp
  | cons c cs ih =>
    simp only [List.map_cons, List.flatten_cons, List.length_append, ih, List.sum_cons,
      List.length_cons]
    ring

/-- The assembly contract of `convert` on a non-empty chunk list: the result
is the in-order concatenation of each chunk's audio followed by the silence
segment (trailing silence included), and its length is the sum of the audio
lengths plus `n` silence segments of `int(sample_rate * silence_duration)`
zero samples each. -/
theorem convertAssemble_spec (chunkAudio : List Char → List ℚ) (sampleRate : Nat)
    (silenceDuration : ℚ) (chunks : List (List Char)) (h : chunks ≠ []) :
    convertAssemble chunkAudio sampleRate silenceDuration chunks
      = some ((chunks.map fun c => chunkAudio c ++
          List.replicate (silenceSamples sampleRate silenceDuration) 0).flatten)
    ∧ ((chunks.map fun c => chunkAudio c ++
          List.replicate (silenceSamples sampleRate silenceDuration) 0).flatten).length
      = (chunks.map fun c => (chunkAudio c).length).sum
          + chunks.length * silenceSamples sampleRate silenceDuration := by
  constructor
  · rw [convertAssemble, npConcatenate]
    have hne : (chunks.flatMap fun c =>
        [chunkAudio c, List.replicate (silenceSamples sampleRate silenceDuration) (0 : ℚ)]).isEmpty = false := by
      rcases chunks with _ | ⟨c, cs⟩
      · exact absurd rfl h
      · simp [List.flatMap_cons]
    rw [hne]
    simp only [Bool.false_eq_true, if_false, flatMap_pair_flatten]
  · rw [flatten_audio_length]
    simp

theorem split_text_into_chunks_nil (chunkSize : Nat) :
    split_text_into_chunks chunkSize [] = [] := by
  rw [split_text_into_chunks, show splitDotSpace [] = [[]] from rfl,
    splitChunksGo, if_pos (show pyStrip [] = [] from rfl)]
  simp [splitChunksGo]

/-! ## The claims -/

/-- C1 (counterexample): for the input `"ab. cdefgh. ij."` with
`chunk_size = 5`, the concatenated period-insensitive word sequence of the
returned chunks is `["cdefgh", "ab", "ij"]`, not the document-order
`["ab", "cdefgh", "ij"]`: the chunks produced from the oversized sentence
`"cdefgh"` are emitted before the accumulator holding the earlier sentence
`"ab"` is flushed, so they do not appear at their document position. -/
theorem C1_order_preservation_counterexample :
    ((split_text_into_chunks 5 "ab. cdefgh. ij.".data).map wordSeq).flatten
      ≠ wordSeq (normalize "ab. cdefgh. ij.".data) := by decide

/-- C1 (amended): for every input text in which no `". "`-split sentence
fragment is longer than `chunk_size` after stripping (so that the
oversized-sentence branch, which emits out of order, is never taken),
concatenating the contents of all chunks returned by
`split_text_into_chunks`, in order and ignoring re-inserted punctuation,
yields exactly the word sequence of the normalized input text, with no word
dropped or duplicated. -/
theorem C1_order_preservation (chunkSize : Nat) (text : List Char)
    (H : ∀ f ∈ splitDotSpace text, (pyStrip f).length ≤ chunkSize) :
    ((split_text_into_chunks chunkSize text).map wordSeq).flatten
      = wordSeq (normalize text) :=
  split_text_into_chunks_wordSeq chunkSize text H

/-- C1 (witness): the amended theorem applied to
`"Hello world. This is a test."` with `chunk_size = 50`. -/
theorem C1_order_preservation_witness :
    (∀ f ∈ splitDotSpace "Hello world. This is a test.".data, (pyStrip f).length ≤ 50)
    ∧ ((split_text_into_chunks 50 "Hello world. This is a test.".data).map wordSeq).flatten
      = wordSeq (normalize "Hello world. This is a test.".data) :=
  ⟨by decide, C1_order_preservation 50 "Hello world. This is a test.".data (by decide)⟩

/-- C2 (counterexample): in `"abc. def. ghi."` with `chunk_size = 10` no
word is longer than 10 characters, yet the single returned chunk
`"abc. def. ghi.."` has content length 14 > 10 (excluding its trailing
period): the running size counter ignores the two `". "` join separator
characters per packed fragment. -/
theorem C2_chunk_size_bound_counterexample :
    (∀ w ∈ pyWords "abc. def. ghi.".data, w.length ≤ 10)
    ∧ split_text_into_chunks 10 "abc. def. ghi.".data = ["abc. def. ghi..".data]
    ∧ "abc. def. ghi..".data = "abc. def. ghi.".data ++ ['.']
    ∧ 10 < "abc. def. ghi.".data.length := by decide

/-- C2 (amended): for `chunk_size ≥ 1` and every input text in which no
single word is longer than `chunk_size`, every chunk returned by
`split_text_into_chunks` has character length (excluding the trailing
period) at most `3 * chunk_size` (packed chunks can reach
`3 * chunk_size - 2` because the size counter ignores the `". "` separators,
and word-split chunks `chunk_size + 1` because it misses one space). -/
theorem C2_chunk_size_bound (chunkSize : Nat) (text : List Char)
    (hcs : 1 ≤ chunkSize)
    (hw : ∀ w ∈ pyWords text, w.length ≤ chunkSize) :
    ∀ c ∈ split_text_into_chunks chunkSize text,
      ∃ u, c = u ++ ['.'] ∧ u.length ≤ 3 * chunkSize := by
  intro c hc
  obtain ⟨u, hu⟩ := splitChunksGo_shape chunkSize (splitDotSpace text) [] 0 c hc
  have hw2 : ∀ w ∈ splitWsAll text, w.length ≤ chunkSize := by
    intro w hww
    by_cases hnil : w = []
    · subst hnil; simp
    · exact hw w (List.mem_filter.mpr ⟨hww, by simpa using hnil⟩)
  have hlen := split_text_into_chunks_length_le chunkSize text hcs hw2 c hc
  subst hu
  refine ⟨u, rfl, ?_⟩
  simp only [List.length_append, List.length_singleton] at hlen
  omega

/-- C2 (witness): the amended theorem applied to `"ab. cd."` with
`chunk_size = 5`. -/
theorem C2_chunk_size_bound_witness :
    (1 ≤ 5 ∧ ∀ w ∈ pyWords "ab. cd.".data, w.length ≤ 5)
    ∧ ∀ c ∈ split_text_into_chunks 5 "ab. cd.".data,
        ∃ u, c = u ++ ['.'] ∧ u.length ≤ 3 * 5 :=
  ⟨⟨by decide, by decide⟩, C2_chunk_size_bound 5 "ab. cd.".data (by decide) (by decide)⟩

/-- C3 (counterexample): on `"Hello world. This is a test."` with
`chunk_size = 50` the function does return exactly one chunk, but that chunk
is not the string `"Hello world. This is a test."`: the second `". "`-split
fragment is `"This is a test."` (its period survives the split because it is
not followed by a space), and flushing appends another period. -/
theorem C3_scenario_counterexample :
    split_text_into_chunks 50 "Hello world. This is a test.".data
      ≠ ["Hello world. This is a test.".data] := by decide

/-- C3 (amended): for the input `"Hello world. This is a test."` with
`chunk_size = 50`, `split_text_into_chunks` returns exactly one chunk and
that chunk is the string `"Hello world. This is a test.."` (with a doubled
final period). -/
theorem C3_scenario :
    split_text_into_chunks 50 "Hello world. This is a test.".data
      = ["Hello world. This is a test..".data] := by decide

/-- C4: for every list of mapped tokens of length `n`, the interspersed
token sequence `_intersperse mapped 0` produced by the tokenizer has length
`2 * n + 1`; for every `i < n` the element at index `2 * i + 1` equals the
`i`-th mapped token, and every element at an even index equals `0`. -/
theorem C4_interspersion (mapped : List Int) :
    (_intersperse mapped 0).length = 2 * mapped.length + 1
    ∧ (∀ i, i < mapped.length → (_intersperse mapped 0)[2 * i + 1]? = mapped[i]?)
    ∧ (∀ j, j ≤ mapped.length → (_intersperse mapped 0)[2 * j]? = some 0) :=
  ⟨intersperse_length mapped 0, intersperse_odd mapped 0, intersperse_even mapped 0⟩

/-- C4 (witness): the interspersion invariant evaluated on `[5, 7]`. -/
theorem C4_interspersion_witness :
    (_intersperse [5, 7] 0).length = 2 * 2 + 1
    ∧ (_intersperse [5, 7] 0)[2 * 1 + 1]? = ([5, 7] : List Int)[1]?
    ∧ (_intersperse [5, 7] 0)[2 * 2]? = some 0 :=
  ⟨(C4_interspersion [5, 7]).1, (C4_interspersion [5, 7]).2.1 1 (by decide),
    (C4_interspersion [5, 7]).2.2 2 (by decide)⟩

/-- C5: for every non-empty batch, `_pad_tokens` succeeds, reports exactly
the true pre-pad lengths, and returns rows that are the original sequences
right-padded with zeros up to the maximum pre-pad length of the batch (so
every row has that length, each reported length is bounded by it, and every
appended element is `0`). -/
theorem C5_padding (tokens : List (List Int)) (h : tokens ≠ []) :
    ∃ padded lengths, _pad_tokens tokens = some (padded, lengths)
      ∧ lengths = tokens.map List.length
      ∧ (∀ i, i < tokens.length → ∃ t, tokens[i]? = some t
          ∧ lengths[i]? = some t.length
          ∧ t.length ≤ (tokens.map List.length).foldr max 0
          ∧ padded[i]? = some (t ++
              List.replicate (((tokens.map List.length).foldr max 0) - t.length) 0)
          ∧ (t ++ List.replicate (((tokens.map List.length).foldr max 0) - t.length) 0).length
              = (tokens.map List.length).foldr max 0) :=
  pad_tokens_spec tokens h

/-- C5 (witness): the padding invariant evaluated on the batch
`[[1], [2, 3]]`. -/
theorem C5_padding_witness :
    ([[1], [2, 3]] : List (List Int)) ≠ []
    ∧ ∃ padded lengths, _pad_tokens [[1], [2, 3]] = some (padded, lengths)
      ∧ lengths = ([[1], [2, 3]] : List (List Int)).map List.length
      ∧ (∀ i, i < ([[1], [2, 3]] : List (List Int)).length →
          ∃ t, (([[1], [2, 3]] : List (List Int)))[i]? = some t
          ∧ lengths[i]? = some t.length
          ∧ t.length ≤ (([[1], [2, 3]] : List (List Int)).map List.length).foldr max 0
          ∧ padded[i]? = some (t ++
              List.replicate (((([[1], [2, 3]] : List (List Int)).map List.length).foldr max 0) - t.length) 0)
          ∧ (t ++ List.replicate (((([[1], [2, 3]] : List (List Int)).map List.length).foldr max 0) - t.length) 0).length
              = (([[1], [2, 3]] : List (List Int)).map List.length).foldr max 0) :=
  ⟨by decide, C5_padding [[1], [2, 3]] (by decide)⟩

/-- C6 (counterexample): with `sample_rate = 1` and
`silence_duration = 0.75` (a dyadic value, exact in binary floating point so
the rational model agrees with the float computation), the code inserts
`int(1 * 0.75) = 0` silence samples per chunk while the claimed
`round(1 * 0.75) = 1`; a one-chunk conversion whose audio has 2 samples
assembles to 2 samples in total, not `2 + 1 * 1 = 3` as the claim computes. -/
theorem C6_assembly_counterexample :
    convert (fun _ => [1, 1]) 50 1 (3/4) "Hi.".data = some [1, 1]
    ∧ (split_text_into_chunks 50 (normalize "Hi.".data)).length = 1
    ∧ specSilenceSamples 1 (3/4) = 1
    ∧ (convert (fun _ => [1, 1]) 50 1 (3/4) "Hi.".data).map List.length
        ≠ some (2 + 1 * specSilenceSamples 1 (3/4)) := by
  have hsil : silenceSamples 1 (3/4) = 0 := by
    rw [silenceSamples, pyInt, if_pos (by norm_num)]
    norm_num
  have hspec : specSilenceSamples 1 (3/4) = 1 := by
    rw [specSilenceSamples]
    norm_num
  have hchunks : split_text_into_chunks 50 (normalize "Hi.".data) = ["Hi..".data] := by decide
  have hconv : convert (fun _ => [1, 1]) 50 1 (3/4) "Hi.".data = some [1, 1] := by
    rw [convert, hchunks, convertAssemble, hsil]
    rfl
  refine ⟨hconv, by rw [hchunks]; rfl, hspec, ?_⟩
  rw [hconv, hspec]
  decide

/-- C6 (amended): for every conversion with `n ≥ 1` chunks, the assembled
waveform is the concatenation `audio_1, silence, ..., audio_n, silence`
(silence after every chunk, the last included), each silence segment is the
all-zero sequence of length `s = int(sample_rate * silence_duration)` (a
truncation, not the claimed `round(...)`), and the total sample count is
`sum(len(audio_i)) + n * s`. -/
theorem C6_assembly (chunkAudio : List Char → List ℚ) (chunkSize sampleRate : Nat)
    (silenceDuration : ℚ) (text : List Char)
    (h : split_text_into_chunks chunkSize (normalize text) ≠ []) :
    convert chunkAudio chunkSize sampleRate silenceDuration text
      = some (((split_text_into_chunks chunkSize (normalize text)).map fun c =>
          chunkAudio c ++ List.replicate (silenceSamples sampleRate silenceDuration) 0).flatten)
    ∧ (((split_text_into_chunks chunkSize (normalize text)).map fun c =>
          chunkAudio c ++ List.replicate (silenceSamples sampleRate silenceDuration) 0).flatten).length
      = ((split_text_into_chunks chunkSize (normalize text)).map fun c =>
            (chunkAudio c).length).sum
          + (split_text_into_chunks chunkSize (normalize text)).length
              * silenceSamples sampleRate silenceDuration :=
  convertAssemble_spec chunkAudio sampleRate silenceDuration _ h

/-- C6 (witness): the amended assembly contract on the input `"Hi."`. -/
theorem C6_assembly_witness :
    split_text_into_chunks 50 (normalize "Hi.".data) ≠ []
    ∧ (convert (fun _ => ([1, 1] : List ℚ)) 50 1 (3/4) "Hi.".data
        = some (((split_text_into_chunks 50 (normalize "Hi.".data)).map fun c =>
            (fun _ => ([1, 1] : List ℚ)) c ++ List.replicate (silenceSamples 1 (3/4)) 0).flatten)
      ∧ (((split_text_into_chunks 50 (normalize "Hi.".data)).map fun c =>
            (fun _ => ([1, 1] : List ℚ)) c ++ List.replicate (silenceSamples 1 (3/4)) 0).flatten).length
        = ((split_text_into_chunks 50 (normalize "Hi.".data)).map fun c =>
              ((fun _ => ([1, 1] : List ℚ)) c).length).sum
            + (split_text_into_chunks 50 (normalize "Hi.".data)).length
                * silenceSamples 1 (3/4)) :=
  ⟨by decide, C6_assembly (fun _ => [1, 1]) 50 1 (3/4) "Hi.".data (by decide)⟩

/-- C7: an all-whitespace input normalizes to the empty string and
`split_text_into_chunks` returns zero chunks (this half of the claim holds);
`convert` then reaches `np.concatenate([])`, which raises an incidental
`ValueError` (modelled as `none`) instead of a defined no-op or a defined
"nothing to synthesize" condition — the crash the claim and the spec rule
out, so the code is at fault on the second half. -/
theorem C7_empty_input (chunkAudio : List Char → List ℚ) (chunkSize sampleRate : Nat)
    (silenceDuration : ℚ) :
    normalize "   ".data = []
    ∧ split_text_into_chunks chunkSize (normalize "   ".data) = []
    ∧ convert chunkAudio chunkSize sampleRate silenceDuration "   ".data = none := by
  have h1 : normalize "   ".data = [] := by decide
  refine ⟨h1, ?_, ?_⟩
  · rw [h1, split_text_into_chunks_nil]
  · rw [convert, h1, split_text_into_chunks_nil]
    rfl

/-- C8: `tokenize` raises its input-validation `ValueError` if and only if
the text is empty after trimming whitespace; on every non-empty (post-trim)
text no validation error is raised, whatever the phonemizer, vocabulary and
abbreviation configuration do. -/
theorem C8_tokenize_validation (rules : List (List Char × List Char))
    (phonemize : List Char → List Char) (vocab : Char → Option Int) (text : List Char) :
    isValidationError (tokenize rules phonemize vocab text) = (pyStrip text == []) :=
  tokenize_validation_iff rules phonemize vocab text

/-- C9 (counterexample): with a rule literally mapping `"Mr."` to
`"Mister"`, the text handed to the phonemizer for input `"Mr. Smith"` is
`"mr. smith"` — not `"mister smith"` — because lowercasing happens before
abbreviation expansion, so the case-sensitive pattern `"Mr."` never
matches. -/
theorem C9_abbreviation_counterexample :
    phonemizerInput [("Mr.".data, "Mister".data)] "Mr. Smith".data = "mr. smith".data
    ∧ phonemizerInput [("Mr.".data, "Mister".data)] "Mr. Smith".data
        ≠ "mister smith".data :=
  ⟨by decide, by decide⟩

/-- C9 (amended): with the lowercase rule `"mr." → "mister"` (the form the
external configuration must store, since expansion runs on the already
lowercased text), tokenizing `"Mr. Smith"` passes `"mister smith"` to the
phonemizer. -/
theorem C9_abbreviation :
    phonemizerInput [("mr.".data, "mister".data)] "Mr. Smith".data
      = "mister smith".data := by decide

/-- C10: every chunk returned by `split_text_into_chunks` — including the
chunks produced through `_split_sentence` — is a non-empty string whose last
character is a period. -/
theorem C10_chunk_terminator (chunkSize : Nat) (text : List Char) :
    ∀ c ∈ split_text_into_chunks chunkSize text, c ≠ [] ∧ c.getLast? = some '.' := by
  intro c hc
  obtain ⟨u, hu⟩ := splitChunksGo_shape chunkSize (splitDotSpace text) [] 0 c hc
  subst hu
  exact ⟨by simp, by simp⟩

/-- C10 (witness): the chunk terminator invariant evaluated on the chunk
produced for the input `"a"` with `chunk_size = 5`. -/
theorem C10_chunk_terminator_witness :
    "a.".data ∈ split_text_into_chunks 5 "a".data
    ∧ ("a.".data ≠ [] ∧ ("a.".data).getLast? = some '.') :=
  ⟨by decide, C10_chunk_terminator 5 "a".data "a.".data (by decide)⟩

end TextToAudio
